import Mathlib

/-!
Verification development for the Stock-Market-Trends repository
(`StockTrends.py`).  The script's core is embedded shallowly:

* prices are exact rationals (`ℚ`); the only non-finite float value the
  script can produce is the `0.0/0` NaN arising in `get_SMA` when
  `time_period = 0`, modelled by `Option ℚ` with `none` standing for NaN;
* a pandas `Series` of close prices is a pair of lists `dates`, `closes`
  (index and values; pandas guarantees equal length, carried as a
  hypothesis in the theorems);
* dates are day ordinals (`ℕ`) for the moving-average and candlestick
  code, and an arbitrary linearly ordered type for ingestion (the script
  compares ISO `YYYY-MM-DD` date strings lexicographically, which agrees
  with chronological order, so any linear order is faithful);
* Python exceptions are an `Except` result: `valueError` is the pandas
  length-mismatch error raised by `pd.Series(values, index = dates)`,
  `indexError` the positional-indexing error raised by `series[0]` on an
  empty series, and `parseError`/`schemaError` stand for the
  `pd.read_csv` / missing-`Date`-column failures of `get_data`.
-/

inductive PyErr where
  | valueError
  | indexError
  | parseError
  | schemaError
deriving DecidableEq, Repr

/-- Models `summation/time_period` at line 303 of `StockTrends.py`: numpy float
division.  Inside `get_SMA` the numerator is the sum of an empty window
whenever `time_period = 0`, so the only division by zero the script can
perform is `0.0/0`, whose numpy value is NaN (`none`). -/
def pyDiv (x : ℚ) (p : ℤ) : Option ℚ :=
  if p = 0 then none else some (x / p)

/-- Python slicing `l[p:]` for a possibly negative integer `p`. -/
def pySlice {α : Type} (l : List α) (p : ℤ) : List α :=
  if 0 ≤ p then l.drop p.toNat else l.drop (l.length - (-p).toNat)

/-- The averaging loop of `get_SMA` (lines 289-306): position `ii` holds
`np.sum(close_data.iloc[range(ii, ii + time_period)]) / time_period`.
`close_data.iloc[range(ii, ii + p)]` is the slice of `p` consecutive
values starting at position `ii` (empty when `p ≤ 0`). -/
def smaVals (closes : List ℚ) (p : ℤ) : List (Option ℚ) :=
  (List.range ((closes.length : ℤ) - p).toNat).map
    (fun ii => pyDiv ((closes.drop ii).take p.toNat).sum p)

/-- Model of `get_SMA(close_data, time_period)` (lines 254-317): the averaging
loop, then `dates = close_data.index[time_period:]` and
`pd.Series(SMA, index = dates)`, which raises a `ValueError` when the
value list and the index have different lengths. -/
def get_SMA (dates : List ℕ) (closes : List ℚ) (p : ℤ) :
    Except PyErr (List (ℕ × Option ℚ)) :=
  let vals := smaVals closes p
  let ds := pySlice dates p
  if vals.length = ds.length then Except.ok (ds.zip vals)
  else Except.error PyErr.valueError

/-- The EMA loop of `get_EMA` (lines 368-383): given the previous value
(`initial_EMA` for `ii = 0`), each step computes
`(close_temp - prev) * k + prev`; NaN propagates through the float
arithmetic. -/
def emaScan (k : ℚ) : Option ℚ → List ℚ → List (Option ℚ)
  | _, [] => []
  | prev, c :: cs =>
    (prev.map fun x => (c - x) * k + x) ::
      emaScan k (prev.map fun x => (c - x) * k + x) cs

/-- Model of `get_EMA(close_data, time_period)` (lines 324-394):
`initial_EMA = get_SMA(close_data, time_period)[0]` (propagating any
error from `get_SMA`; positional `[0]` on an empty series raises an
`IndexError`), `k = 2.0 / (time_period + 1)`, the recurrence loop over
`close_data[time_period + ii]`, then `pd.Series(EMA, index = dates)` with
`dates = close_data.index[time_period:]`. -/
def get_EMA (dates : List ℕ) (closes : List ℚ) (p : ℤ) :
    Except PyErr (List (ℕ × Option ℚ)) :=
  match get_SMA dates closes p with
  | Except.error e => Except.error e
  | Except.ok sma =>
    match sma.head? with
    | none => Except.error PyErr.indexError
    | some first =>
      let k : ℚ := 2 / ((p : ℚ) + 1)
      let vals := emaScan k first.2
        ((closes.drop p.toNat).take ((closes.length : ℤ) - p).toNat)
      let ds := pySlice dates p
      if vals.length = ds.length then Except.ok (ds.zip vals)
      else Except.error PyErr.valueError

/-- One row of a per-symbol data file after `pd.read_csv`: a date plus
the numeric `Open, High, Low, Close, Adj Close, Volume` fields. -/
structure Row (δ : Type) where
  date : δ
  op : ℚ
  hi : ℚ
  lo : ℚ
  cl : ℚ
  adjcl : ℚ
  vol : ℤ
deriving DecidableEq, Repr

/-- The per-file body of the `get_data` loop (lines 104-121): the mask
`(df["Date"] > start_date) & (df["Date"] <= end_date)` selects the rows
in the half-open interval `(start_date, end_date]`, in source order (the
script performs no sort); re-indexing by the dates keeps the same rows. -/
def processFile {δ : Type} [LinearOrder δ] (rows : List (Row δ)) (s e : δ) :
    List (Row δ) :=
  rows.filter (fun r => s < r.date ∧ r.date ≤ e)

/-- Model of `file_name[:-4]` (line 124): Python drops the last four characters,
whatever they are (empty result when the name has at most four). -/
def dropLast4 (s : String) : String :=
  String.mk (s.data.take (s.data.length - 4))

/-- Model of `get_data(data_prefix, start_date, end_date)` (lines 51-126).  The
directory is modelled as a list of file names paired with the outcome of
reading that file (`pd.read_csv` + schema access can fail, which the
loop does not catch: the exception propagates and the whole call
delivers no dictionary).  On success each file contributes the entry
`file_name[:-4] ↦ filtered rows`, in directory order. -/
def get_data {δ : Type} [LinearOrder δ] :
    List (String × Except PyErr (List (Row δ))) → δ → δ →
    Except PyErr (List (String × List (Row δ)))
  | [], _, _ => Except.ok []
  | (fname, res) :: rest, s, e =>
    match res with
    | Except.error err => Except.error err
    | Except.ok rows =>
      match get_data rest s e with
      | Except.error err => Except.error err
      | Except.ok m => Except.ok ((dropLast4 fname, processFile rows s e) :: m)

/-- Model of `mdates.date2num` (line 205): the calendar date as a day count from
a fixed epoch; with dates already modelled as day ordinals this is the
numeric cast. -/
def date2num (d : ℕ) : ℚ := (d : ℚ)

/-- The candlestick projection (lines 200-208): `ADI_data.iloc[:, 0:4]`
takes open/high/low/close of every record, `mdates.date2num` converts
each index date, and `pd.concat` pairs them row by row — one output
tuple per input record, in order. -/
def ADI_candle (rows : List (Row ℕ)) : List (ℚ × ℚ × ℚ × ℚ × ℚ) :=
  rows.map (fun r => (date2num r.date, r.op, r.hi, r.lo, r.cl))

/-- Modelled from the spec: the EMA recurrence of §4.2, stated over the
raw close list — `EMA[0] = (close[p] - seed) * k + seed` and
`EMA[i] = (close[p+i] - EMA[i-1]) * k + EMA[i-1]`.  Used to compare
`get_EMA` against the spec's recurrence. -/
def emaSpecVal (k seed : ℚ) (closes : List ℚ) (p : ℕ) : ℕ → ℚ
  | 0 => (closes.getD p 0 - seed) * k + seed
  | i + 1 =>
    (closes.getD (p + i + 1) 0 - emaSpecVal k seed closes p i) * k +
      emaSpecVal k seed closes p i

/-! ### Helper lemmas -/

lemma getD_drop {α : Type} (l : List α) (d : α) (a j : ℕ) :
    (l.drop a).getD j d = l.getD (a + j) d := by
  simp [List.getD_eq_getElem?_getD, List.getElem?_drop]

lemma sum_take_eq_range (l : List ℚ) :
    ∀ k : ℕ, k ≤ l.length →
      (l.take k).sum = ∑ j ∈ Finset.range k, l.getD j 0 := by
  intro k
  induction k with
  | zero => simp
  | succ k ih =>
    intro hk
    have hk' : k < l.length := hk
    rw [List.take_succ, List.sum_append, ih (Nat.le_of_lt hk'),
      Finset.sum_range_succ]
    simp [List.getElem?_eq_getElem hk']

lemma window_sum (closes : List ℚ) (i pn : ℕ) (h : i + pn ≤ closes.length) :
    ((closes.drop i).take pn).sum =
      ∑ j ∈ Finset.range pn, closes.getD (i + j) 0 := by
  rw [sum_take_eq_range (closes.drop i) pn (by simp; omega)]
  exact Finset.sum_congr rfl (fun j _ => getD_drop closes 0 i j)

lemma smaVals_length (closes : List ℚ) (p : ℤ) :
    (smaVals closes p).length = ((closes.length : ℤ) - p).toNat := by
  unfold smaVals
  simp

lemma smaVals_getD (closes : List ℚ) (p : ℤ) (i : ℕ)
    (hi : i < ((closes.length : ℤ) - p).toNat) :
    (smaVals closes p).getD i none =
      pyDiv ((closes.drop i).take p.toNat).sum p := by
  unfold smaVals
  rw [List.getD_eq_getElem?_getD, List.getElem?_map, List.getElem?_range hi]
  rfl

lemma zip_getD {α β : Type} (l₁ : List α) (l₂ : List β) (i : ℕ) (d₁ : α)
    (d₂ : β) (h₁ : i < l₁.length) (h₂ : i < l₂.length) :
    (l₁.zip l₂).getD i (d₁, d₂) = (l₁.getD i d₁, l₂.getD i d₂) := by
  have hz : i < (l₁.zip l₂).length := by
    simp only [List.length_zip]
    omega
  simp [List.getD_eq_getElem?_getD, List.getElem?_eq_getElem, hz, h₁, h₂,
    List.getElem_zip]

lemma sma_ok (dates : List ℕ) (closes : List ℚ) (p : ℤ)
    (hd : dates.length = closes.length) (hp0 : 0 ≤ p) :
    get_SMA dates closes p =
      Except.ok ((dates.drop p.toNat).zip (smaVals closes p)) := by
  have hds : pySlice dates p = dates.drop p.toNat := by
    unfold pySlice
    rw [if_pos hp0]
  unfold get_SMA
  rw [hds, if_pos]
  rw [smaVals_length, List.length_drop, hd]
  omega

/-- Claim C1: for a close series of length `n` and a period `1 ≤ p < n`,
`get_SMA` returns a series of length `n - p` whose value at output
position `i` is the arithmetic mean of the `p` close prices at source
positions `[i, i + p)` and whose date is the source date at position
`p + i`; and for `p ≥ n` the result is the empty series. -/
theorem sma_window_mean (dates : List ℕ) (closes : List ℚ) (p : ℤ)
    (hd : dates.length = closes.length) :
    (1 ≤ p → p < (closes.length : ℤ) →
      ∃ out, get_SMA dates closes p = Except.ok out ∧
        out.length = closes.length - p.toNat ∧
        ∀ i, i < out.length →
          out.getD i (0, none) =
            (dates.getD (p.toNat + i) 0,
             some ((∑ j ∈ Finset.range p.toNat, closes.getD (i + j) 0) /
               (p : ℚ)))) ∧
    ((closes.length : ℤ) ≤ p → get_SMA dates closes p = Except.ok []) := by
  constructor
  · intro hp1 hpn
    refine ⟨_, sma_ok dates closes p hd (by omega), ?_, ?_⟩
    · simp only [List.length_zip, smaVals_length, List.length_drop, hd]
      omega
    · intro i hi
      simp only [List.length_zip, smaVals_length, List.length_drop, hd] at hi
      have hi' : i < closes.length - p.toNat := by omega
      rw [zip_getD _ _ _ _ _ (by simp only [List.length_drop, hd]; omega)
        (by rw [smaVals_length]; omega)]
      simp only [Prod.mk.injEq]
      refine ⟨getD_drop dates 0 p.toNat i, ?_⟩
      rw [smaVals_getD closes p i (by omega)]
      unfold pyDiv
      rw [if_neg (by omega), window_sum closes i p.toNat (by omega)]
  · intro hnp
    rw [sma_ok dates closes p hd (by omega),
      List.drop_eq_nil_of_le (by omega)]
    simp

/-- Witness for C1 on the spec's §8 example: closes `1..10`, period 3. -/
theorem sma_window_mean_witness :
    ∃ out, get_SMA [0, 1, 2, 3, 4, 5, 6, 7, 8, 9]
        [1, 2, 3, 4, 5, 6, 7, 8, 9, 10] 3 = Except.ok out ∧
      out.length = 7 ∧
      ∀ i, i < out.length →
        out.getD i (0, none) =
          ([(0 : ℕ), 1, 2, 3, 4, 5, 6, 7, 8, 9].getD (3 + i) 0,
           some ((∑ j ∈ Finset.range 3,
             [(1 : ℚ), 2, 3, 4, 5, 6, 7, 8, 9, 10].getD (i + j) 0) /
               ((3 : ℤ) : ℚ))) :=
  (sma_window_mean [0, 1, 2, 3, 4, 5, 6, 7, 8, 9]
    [1, 2, 3, 4, 5, 6, 7, 8, 9, 10] 3 rfl).1 (by decide) (by decide)

lemma exists_min_max (l : List ℚ) (hne : l ≠ []) :
    ∃ m M, m ∈ l ∧ M ∈ l ∧ ∀ x ∈ l, m ≤ x ∧ x ≤ M := by
  induction l with
  | nil => exact absurd rfl hne
  | cons c cs ih =>
    cases cs with
    | nil =>
      refine ⟨c, c, List.mem_singleton_self c, List.mem_singleton_self c, ?_⟩
      intro x hx
      rw [List.mem_singleton] at hx
      exact ⟨le_of_eq hx.symm, le_of_eq hx⟩
    | cons b bs =>
      obtain ⟨m, M, hm, hM, hb⟩ := ih (by simp)
      refine ⟨min c m, max c M, ?_, ?_, ?_⟩
      · rcases le_total c m with h | h
        · rw [min_eq_left h]
          exact List.mem_cons_self c _
        · rw [min_eq_right h]
          exact List.mem_cons_of_mem c hm
      · rcases le_total c M with h | h
        · rw [max_eq_right h]
          exact List.mem_cons_of_mem c hM
        · rw [max_eq_left h]
          exact List.mem_cons_self c _
      · intro x hx
        rcases List.mem_cons.mp hx with h | h
        · rw [h]
          exact ⟨min_le_left _ _, le_max_left _ _⟩
        · obtain ⟨h1, h2⟩ := hb x h
          exact ⟨le_trans (min_le_right _ _) h1,
            le_trans h2 (le_max_right _ _)⟩

lemma sum_div_bounds (l : List ℚ) (m M : ℚ) (q : ℚ) (hq : 0 < q)
    (hlen : (l.length : ℚ) = q) (hlo : ∀ x ∈ l, m ≤ x)
    (hhi : ∀ x ∈ l, x ≤ M) : m ≤ l.sum / q ∧ l.sum / q ≤ M := by
  have h1 : l.length • m ≤ l.sum := List.card_nsmul_le_sum l m hlo
  have h2 : l.sum ≤ l.length • M := List.sum_le_card_nsmul l M hhi
  rw [nsmul_eq_mul] at h1 h2
  constructor
  · rw [le_div_iff₀ hq]
    calc m * q = (l.length : ℚ) * m := by rw [hlen]; ring
    _ ≤ l.sum := h1
  · rw [div_le_iff₀ hq]
    calc l.sum ≤ (l.length : ℚ) * M := h2
    _ = M * q := by rw [hlen]; ring

/-- Claim C10 (implicit): each SMA value lies between the minimum and
the maximum (inclusive) of the `p` close prices of its averaging window
`[i, i + p)`. -/
theorem sma_value_in_window_range (dates : List ℕ) (closes : List ℚ)
    (p : ℤ) (hd : dates.length = closes.length) (hp1 : 1 ≤ p)
    (hpn : p < (closes.length : ℤ)) :
    ∃ out, get_SMA dates closes p = Except.ok out ∧
      ∀ i, i < out.length →
        ∃ m M, m ∈ (closes.drop i).take p.toNat ∧
          M ∈ (closes.drop i).take p.toNat ∧
          (∀ x ∈ (closes.drop i).take p.toNat, m ≤ x ∧ x ≤ M) ∧
          (out.getD i (0, none)).2 =
            some (((closes.drop i).take p.toNat).sum / (p : ℚ)) ∧
          m ≤ ((closes.drop i).take p.toNat).sum / (p : ℚ) ∧
          ((closes.drop i).take p.toNat).sum / (p : ℚ) ≤ M := by
  refine ⟨_, sma_ok dates closes p hd (by omega), ?_⟩
  intro i hi
  simp only [List.length_zip, smaVals_length, List.length_drop, hd] at hi
  have hi' : i < closes.length - p.toNat := by omega
  have hwl : ((closes.drop i).take p.toNat).length = p.toNat := by
    simp only [List.length_take, List.length_drop]
    omega
  have hne : (closes.drop i).take p.toNat ≠ [] := by
    intro h
    rw [h] at hwl
    simp at hwl
    omega
  obtain ⟨m, M, hm, hM, hb⟩ := exists_min_max _ hne
  have hq : (0 : ℚ) < (p : ℚ) := by
    exact_mod_cast lt_of_lt_of_le zero_lt_one hp1
  have hlenq : ((((closes.drop i).take p.toNat).length : ℕ) : ℚ) = (p : ℚ) := by
    rw [hwl]
    have : ((p.toNat : ℤ) : ℚ) = (p : ℚ) := by
      rw [Int.toNat_of_nonneg (by omega)]
    exact_mod_cast this
  obtain ⟨hlo, hhi⟩ := sum_div_bounds _ m M (p : ℚ) hq hlenq
    (fun x hx => (hb x hx).1) (fun x hx => (hb x hx).2)
  refine ⟨m, M, hm, hM, hb, ?_, hlo, hhi⟩
  rw [zip_getD _ _ _ _ _ (by simp only [List.length_drop, hd]; omega)
    (by rw [smaVals_length]; omega)]
  simp only
  rw [smaVals_getD closes p i (by omega)]
  unfold pyDiv
  rw [if_neg (by omega)]

/-- Witness for C10: closes `1..10`, period 3, all SMA values lie in
their window's range. -/
theorem sma_value_in_window_range_witness :
    ∃ out, get_SMA [0, 1, 2, 3, 4, 5, 6, 7, 8, 9]
        [1, 2, 3, 4, 5, 6, 7, 8, 9, 10] 3 = Except.ok out ∧
      ∀ i, i < out.length →
        ∃ m M, m ∈ ([(1 : ℚ), 2, 3, 4, 5, 6, 7, 8, 9, 10].drop i).take 3 ∧
          M ∈ ([(1 : ℚ), 2, 3, 4, 5, 6, 7, 8, 9, 10].drop i).take 3 ∧
          (∀ x ∈ ([(1 : ℚ), 2, 3, 4, 5, 6, 7, 8, 9, 10].drop i).take 3,
            m ≤ x ∧ x ≤ M) ∧
          (out.getD i (0, none)).2 =
            some ((([(1 : ℚ), 2, 3, 4, 5, 6, 7, 8, 9, 10].drop i).take 3).sum /
              ((3 : ℤ) : ℚ)) ∧
          m ≤ (([(1 : ℚ), 2, 3, 4, 5, 6, 7, 8, 9, 10].drop i).take 3).sum /
              ((3 : ℤ) : ℚ) ∧
          (([(1 : ℚ), 2, 3, 4, 5, 6, 7, 8, 9, 10].drop i).take 3).sum /
              ((3 : ℤ) : ℚ) ≤ M :=
  sma_value_in_window_range [0, 1, 2, 3, 4, 5, 6, 7, 8, 9]
    [1, 2, 3, 4, 5, 6, 7, 8, 9, 10] 3 rfl (by decide) (by decide)

lemma emaScan_length (k : ℚ) :
    ∀ (prev : Option ℚ) (cs : List ℚ), (emaScan k prev cs).length = cs.length := by
  intro prev cs
  induction cs generalizing prev with
  | nil => rfl
  | cons c cs' ih => simp [emaScan, ih]

lemma emaScan_getD (k : ℚ) :
    ∀ (cs : List ℚ) (seed : ℚ) (f : ℕ → ℚ),
      f 0 = (cs.getD 0 0 - seed) * k + seed →
      (∀ i, f (i + 1) = (cs.getD (i + 1) 0 - f i) * k + f i) →
      ∀ i, i < cs.length →
        (emaScan k (some seed) cs).getD i none = some (f i) := by
  intro cs
  induction cs with
  | nil =>
    intro seed f h0 hS i hi
    simp at hi
  | cons c cs' ih =>
    intro seed f h0 hS i hi
    cases i with
    | zero =>
      simp only [emaScan, Option.map_some', List.getD_cons_zero]
      rw [h0, List.getD_cons_zero]
    | succ i =>
      have step : emaScan k (some seed) (c :: cs') =
          some ((c - seed) * k + seed) ::
            emaScan k (some ((c - seed) * k + seed)) cs' := by
        simp [emaScan]
      rw [step, List.getD_cons_succ]
      refine ih ((c - seed) * k + seed) (fun j => f (j + 1)) ?_ ?_ i
        (by simpa using hi)
      · show f (0 + 1) = (cs'.getD 0 0 - ((c - seed) * k + seed)) * k +
          ((c - seed) * k + seed)
        rw [hS 0, h0]
        simp
      · intro j
        show f (j + 1 + 1) = (cs'.getD (j + 1) 0 - f (j + 1)) * k + f (j + 1)
        rw [hS (j + 1)]
        simp

lemma take_drop_getD (closes : List ℚ) (pn j : ℕ) :
    ((closes.drop pn).take (closes.length - pn)).getD j 0 =
      closes.getD (pn + j) 0 := by
  rw [show closes.length - pn = (closes.drop pn).length by simp,
    List.take_length]
  exact getD_drop closes 0 pn j

lemma ema_ok (dates : List ℕ) (closes : List ℚ) (p : ℤ)
    (hd : dates.length = closes.length) (hp1 : 1 ≤ p)
    (hpn : p < (closes.length : ℤ)) :
    get_EMA dates closes p =
      Except.ok ((dates.drop p.toNat).zip
        (emaScan (2 / ((p : ℚ) + 1))
          (some ((closes.take p.toNat).sum / (p : ℚ)))
          ((closes.drop p.toNat).take ((closes.length : ℤ) - p).toNat))) := by
  have hz0 : 0 < ((dates.drop p.toNat).zip (smaVals closes p)).length := by
    simp only [List.length_zip, smaVals_length, List.length_drop, hd]
    omega
  have hhead : ((dates.drop p.toNat).zip (smaVals closes p)).head? =
      some ((dates.drop p.toNat).getD 0 0, (smaVals closes p).getD 0 none) := by
    rw [List.head?_eq_getElem?, List.getElem?_eq_getElem hz0]
    congr 1
    rw [List.getElem_zip]
    simp only [Prod.mk.injEq]
    refine ⟨?_, ?_⟩
    · rw [List.getD_eq_getElem?_getD, List.getElem?_eq_getElem
        (by simp only [List.length_drop, hd]; omega : 0 < (dates.drop p.toNat).length)]
      rfl
    · rw [List.getD_eq_getElem?_getD, List.getElem?_eq_getElem
        (by rw [smaVals_length]; omega : 0 < (smaVals closes p).length)]
      rfl
  have hseed : (smaVals closes p).getD 0 none =
      some ((closes.take p.toNat).sum / (p : ℚ)) := by
    rw [smaVals_getD closes p 0 (by omega)]
    unfold pyDiv
    rw [if_neg (by omega)]
    rw [List.drop_zero]
  unfold get_EMA
  rw [sma_ok dates closes p hd (by omega)]
  simp only [hhead, hseed]
  have hds : pySlice dates p = dates.drop p.toNat := by
    unfold pySlice
    rw [if_pos (by omega)]
  rw [hds, if_pos]
  rw [emaScan_length, List.length_take, List.length_drop, List.length_drop, hd]
  omega

/-- Claim C2: for `1 ≤ p < n`, `get_EMA` returns a series of length
`n - p` dated `dates[p:]`, with smoothing factor `k = 2/(p + 1)`, seeded
by the first value of `get_SMA` (the mean of the first `p` closes), and
following the recurrence `EMA[i] = (close[p+i] - EMA[i-1]) * k + EMA[i-1]`
over the raw close prices (`emaSpecVal` is the spec's recurrence). -/
theorem ema_matches_spec (dates : List ℕ) (closes : List ℚ) (p : ℤ)
    (hd : dates.length = closes.length) (hp1 : 1 ≤ p)
    (hpn : p < (closes.length : ℤ)) :
    ∃ out, get_EMA dates closes p = Except.ok out ∧
      out.length = closes.length - p.toNat ∧
      (∃ smaOut, get_SMA dates closes p = Except.ok smaOut ∧
        smaOut.head? = some (dates.getD p.toNat 0,
          some ((closes.take p.toNat).sum / (p : ℚ)))) ∧
      ∀ i, i < out.length →
        out.getD i (0, none) =
          (dates.getD (p.toNat + i) 0,
           some (emaSpecVal (2 / ((p : ℚ) + 1))
             ((closes.take p.toNat).sum / (p : ℚ)) closes p.toNat i)) := by
  have hlen : ((closes.length : ℤ) - p).toNat = closes.length - p.toNat := by
    omega
  have hcs : ∀ j, ((closes.drop p.toNat).take
      ((closes.length : ℤ) - p).toNat).getD j 0 = closes.getD (p.toNat + j) 0 := by
    intro j
    rw [hlen]
    exact take_drop_getD closes p.toNat j
  have hcslen : ((closes.drop p.toNat).take
      ((closes.length : ℤ) - p).toNat).length = closes.length - p.toNat := by
    simp only [List.length_take, List.length_drop]
    omega
  refine ⟨_, ema_ok dates closes p hd hp1 hpn, ?_, ?_, ?_⟩
  · simp only [List.length_zip, emaScan_length, hcslen, List.length_drop, hd]
    omega
  · refine ⟨_, sma_ok dates closes p hd (by omega), ?_⟩
    have hz0 : 0 < ((dates.drop p.toNat).zip (smaVals closes p)).length := by
      simp only [List.length_zip, smaVals_length, List.length_drop, hd]
      omega
    rw [List.head?_eq_getElem?, List.getElem?_eq_getElem hz0]
    have : ((dates.drop p.toNat).zip (smaVals closes p)).getD 0 (0, none) =
        ((dates.drop p.toNat).zip (smaVals closes p))[0] := by
      rw [List.getD_eq_getElem?_getD, List.getElem?_eq_getElem hz0]
      rfl
    rw [← this, zip_getD _ _ _ _ _
      (by simp only [List.length_drop, hd]; omega)
      (by rw [smaVals_length]; omega)]
    rw [getD_drop dates 0 p.toNat 0, Nat.add_zero,
      smaVals_getD closes p 0 (by omega)]
    unfold pyDiv
    rw [if_neg (by omega), List.drop_zero]
  · intro i hi
    simp only [List.length_zip, emaScan_length, hcslen, List.length_drop,
      hd] at hi
    have hi' : i < closes.length - p.toNat := by omega
    rw [zip_getD _ _ _ _ _ (by simp only [List.length_drop, hd]; omega)
      (by rw [emaScan_length, hcslen]; omega)]
    simp only [Prod.mk.injEq]
    refine ⟨getD_drop dates 0 p.toNat i, ?_⟩
    refine emaScan_getD (2 / ((p : ℚ) + 1)) _ _
      (emaSpecVal (2 / ((p : ℚ) + 1))
        ((closes.take p.toNat).sum / (p : ℚ)) closes p.toNat) ?_ ?_ i
      (by rw [hcslen]; omega)
    · rw [hcs 0, Nat.add_zero]
      rfl
    · intro j
      rw [hcs (j + 1), show p.toNat + (j + 1) = p.toNat + j + 1 by omega]
      rfl

/-- Witness for C2 on the spec's §8 example: closes `1..10`, period 3,
`k = 1/2`, seed 2; the recurrence gives 3, 4, 5, ... -/
theorem ema_matches_spec_witness :
    ∃ out, get_EMA [0, 1, 2, 3, 4, 5, 6, 7, 8, 9]
        [1, 2, 3, 4, 5, 6, 7, 8, 9, 10] 3 = Except.ok out ∧
      out.length = 7 ∧
      (∃ smaOut, get_SMA [0, 1, 2, 3, 4, 5, 6, 7, 8, 9]
          [1, 2, 3, 4, 5, 6, 7, 8, 9, 10] 3 = Except.ok smaOut ∧
        smaOut.head? = some (3,
          some (([(1 : ℚ), 2, 3, 4, 5, 6, 7, 8, 9, 10].take 3).sum /
            ((3 : ℤ) : ℚ)))) ∧
      ∀ i, i < out.length →
        out.getD i (0, none) =
          ([(0 : ℕ), 1, 2, 3, 4, 5, 6, 7, 8, 9].getD (3 + i) 0,
           some (emaSpecVal (2 / (((3 : ℤ) : ℚ) + 1))
             (([(1 : ℚ), 2, 3, 4, 5, 6, 7, 8, 9, 10].take 3).sum /
               ((3 : ℤ) : ℚ)) [1, 2, 3, 4, 5, 6, 7, 8, 9, 10] 3 i)) :=
  ema_matches_spec [0, 1, 2, 3, 4, 5, 6, 7, 8, 9]
    [1, 2, 3, 4, 5, 6, 7, 8, 9, 10] 3 rfl (by decide) (by decide)

lemma emaScan_none (k : ℚ) :
    ∀ cs : List ℚ, emaScan k none cs = List.replicate cs.length none := by
  intro cs
  induction cs with
  | nil => rfl
  | cons c cs' ih => simp [emaScan, ih, List.replicate_succ]

lemma smaVals_zero (closes : List ℚ) :
    smaVals closes 0 = List.replicate closes.length none := by
  unfold smaVals
  have hfun : (fun ii : ℕ =>
      pyDiv ((closes.drop ii).take (0 : ℤ).toNat).sum 0) =
      fun _ : ℕ => (none : Option ℚ) := by
    funext ii
    simp [pyDiv]
  rw [hfun, List.map_const', List.length_range]
  congr 1

lemma sma_zero (dates : List ℕ) (closes : List ℚ)
    (hd : dates.length = closes.length) :
    get_SMA dates closes 0 =
      Except.ok (dates.zip (List.replicate closes.length none)) := by
  unfold get_SMA
  have hds : pySlice dates 0 = dates := by
    unfold pySlice
    rw [if_pos le_rfl]
    rfl
  rw [smaVals_zero, hds, if_pos]
  simp [hd]

/-- Counterexample to claim C3: `get_SMA` with period `0` does not fail
with any error — it returns a full-length series whose values are the
NaN produced by `0.0/0` (no validation of the period is performed). -/
theorem sma_period_zero_no_error_cex :
    get_SMA [10, 20] [1, 2] 0 = Except.ok [(10, none), (20, none)] := rfl

/-- Claim C3 amended: the code performs no period validation.  A period
of `0` makes both `get_SMA` and `get_EMA` return a full-length series of
NaN values (no error); a negative period makes both fail, but with the
pandas length-mismatch `ValueError` raised when the result series is
assembled after the averaging loop has already run — not an immediate
`InvalidArgument`. -/
theorem sma_ema_no_period_validation (dates : List ℕ) (closes : List ℚ)
    (p : ℤ) (hd : dates.length = closes.length) :
    (get_SMA dates closes 0 =
        Except.ok (dates.zip (List.replicate closes.length none)) ∧
      (closes ≠ [] → get_EMA dates closes 0 =
        Except.ok (dates.zip (List.replicate closes.length none)))) ∧
    (p < 0 → get_SMA dates closes p = Except.error PyErr.valueError ∧
      get_EMA dates closes p = Except.error PyErr.valueError) := by
  constructor
  · refine ⟨sma_zero dates closes hd, ?_⟩
    intro hne
    have hn : 0 < closes.length := List.length_pos.mpr hne
    have hz0 : 0 < (dates.zip (List.replicate closes.length
        (none : Option ℚ))).length := by
      simp only [List.length_zip, List.length_replicate, hd]
      omega
    have hhead : (dates.zip (List.replicate closes.length
        (none : Option ℚ))).head? = some (dates.getD 0 0, none) := by
      rw [List.head?_eq_getElem?, List.getElem?_eq_getElem hz0]
      congr 1
      rw [List.getElem_zip]
      simp only [Prod.mk.injEq, List.getElem_replicate, and_true]
      rw [List.getD_eq_getElem?_getD, List.getElem?_eq_getElem
        (by rw [hd]; omega : 0 < dates.length)]
      rfl
    have hcs : (closes.drop (0 : ℤ).toNat).take
        ((closes.length : ℤ) - 0).toNat = closes := by
      rw [show ((closes.length : ℤ) - 0).toNat = closes.length by omega]
      rw [show (0 : ℤ).toNat = 0 by rfl, List.drop_zero, List.take_length]
    have hds : pySlice dates 0 = dates := by
      unfold pySlice
      rw [if_pos le_rfl]
      rfl
    unfold get_EMA
    rw [sma_zero dates closes hd]
    simp only [hhead]
    rw [hcs, emaScan_none, hds, if_pos]
    simp [hd]
  · intro hneg
    have hq : 1 ≤ (-p).toNat := by omega
    have hsma : get_SMA dates closes p = Except.error PyErr.valueError := by
      unfold get_SMA
      have hds : pySlice dates p =
          dates.drop (dates.length - (-p).toNat) := by
        unfold pySlice
        rw [if_neg (by omega)]
      rw [hds, if_neg]
      rw [smaVals_length, List.length_drop, hd]
      omega
    refine ⟨hsma, ?_⟩
    unfold get_EMA
    rw [hsma]

/-- Witness for the amended C3 at `dates = [10, 20]`, `closes = [1, 2]`,
`p = -1`. -/
theorem sma_ema_no_period_validation_witness :
    (get_SMA [10, 20] [1, 2] 0 =
        Except.ok ([10, 20].zip (List.replicate 2 none)) ∧
      ([(1 : ℚ), 2] ≠ [] → get_EMA [10, 20] [1, 2] 0 =
        Except.ok ([10, 20].zip (List.replicate 2 none)))) ∧
    ((-1 : ℤ) < 0 →
      get_SMA [10, 20] [1, 2] (-1) = Except.error PyErr.valueError ∧
      get_EMA [10, 20] [1, 2] (-1) = Except.error PyErr.valueError) :=
  sma_ema_no_period_validation [10, 20] [1, 2] (-1) rfl

/-- Claim C4: when `p ≥ length(closes)` the seed `get_SMA(...)[0]` is
positional indexing into an empty series, so `get_EMA` signals the
(insufficient-data) indexing error to the caller — while `get_SMA` under
the same condition returns the empty series. -/
theorem ema_insufficient_data_error (dates : List ℕ) (closes : List ℚ)
    (p : ℤ) (hd : dates.length = closes.length)
    (hnp : (closes.length : ℤ) ≤ p) :
    get_EMA dates closes p = Except.error PyErr.indexError ∧
    get_SMA dates closes p = Except.ok [] := by
  have hsma : get_SMA dates closes p = Except.ok [] := by
    rw [sma_ok dates closes p hd (by omega),
      List.drop_eq_nil_of_le (by omega)]
    simp
  refine ⟨?_, hsma⟩
  unfold get_EMA
  rw [hsma]
  rfl

/-- Witness for C4: two closes, period 5. -/
theorem ema_insufficient_data_error_witness :
    get_EMA [0, 1] [1, 2] 5 = Except.error PyErr.indexError ∧
    get_SMA [0, 1] [1, 2] 5 = Except.ok [] :=
  ema_insufficient_data_error [0, 1] [1, 2] 5 rfl (by decide)

/-- Claim C5: ingestion keeps exactly the rows whose date lies in the
half-open interval `(startDate, endDate]` — a row dated exactly
`startDate` is dropped, one dated exactly `endDate` is kept — and when
the interval spans all input dates the record count equals the input row
count minus the rows dated exactly `startDate`. -/
theorem ingestion_half_open_filter {δ : Type} [LinearOrder δ]
    (rows : List (Row δ)) (s e : δ) :
    (∀ r, r ∈ processFile rows s e ↔
      r ∈ rows ∧ (s < r.date ∧ r.date ≤ e)) ∧
    ((∀ r ∈ rows, s ≤ r.date ∧ r.date ≤ e) →
      (processFile rows s e).length =
        rows.length - (rows.filter (fun r => r.date = s)).length) := by
  constructor
  · intro r
    simp [processFile, List.mem_filter]
  · intro h
    induction rows with
    | nil => simp [processFile]
    | cons r rs ih =>
      have hr := h r (List.mem_cons_self r rs)
      have ih' := ih (fun x hx => h x (List.mem_cons_of_mem _ hx))
      have hcnt : (rs.filter (fun x => x.date = s)).length ≤ rs.length :=
        List.length_filter_le _ _
      by_cases hrs : r.date = s
      · have hnot : ¬(s < r.date ∧ r.date ≤ e) := by
          rw [hrs]
          intro hcon
          exact lt_irrefl s hcon.1
        simp only [processFile, List.filter_cons] at ih' ⊢
        rw [if_neg (by simpa using hnot), if_pos (by simpa using hrs)]
        simp only [List.length_cons]
        omega
      · have hyes : s < r.date ∧ r.date ≤ e :=
          ⟨lt_of_le_of_ne hr.1 (Ne.symm hrs), hr.2⟩
        simp only [processFile, List.filter_cons] at ih' ⊢
        rw [if_pos (by simpa using hyes), if_neg (by simpa using hrs)]
        simp only [List.length_cons]
        omega

/-- Witness for C5: three rows dated 5, 10, 20 with the interval
`(5, 20]`: the row dated exactly 5 is dropped, the one dated exactly 20
is kept, and the count is `3 - 1`. -/
theorem ingestion_half_open_filter_witness :
    (∀ r, r ∈ processFile [(⟨5, 1, 1, 1, 1, 1, 1⟩ : Row ℕ),
        ⟨10, 1, 1, 1, 1, 1, 1⟩, ⟨20, 1, 1, 1, 1, 1, 1⟩] 5 20 ↔
      r ∈ [(⟨5, 1, 1, 1, 1, 1, 1⟩ : Row ℕ), ⟨10, 1, 1, 1, 1, 1, 1⟩,
        ⟨20, 1, 1, 1, 1, 1, 1⟩] ∧ (5 < r.date ∧ r.date ≤ 20)) ∧
    (processFile [(⟨5, 1, 1, 1, 1, 1, 1⟩ : Row ℕ), ⟨10, 1, 1, 1, 1, 1, 1⟩,
        ⟨20, 1, 1, 1, 1, 1, 1⟩] 5 20).length =
      [(⟨5, 1, 1, 1, 1, 1, 1⟩ : Row ℕ), ⟨10, 1, 1, 1, 1, 1, 1⟩,
        ⟨20, 1, 1, 1, 1, 1, 1⟩].length -
      ([(⟨5, 1, 1, 1, 1, 1, 1⟩ : Row ℕ), ⟨10, 1, 1, 1, 1, 1, 1⟩,
        ⟨20, 1, 1, 1, 1, 1, 1⟩].filter (fun r => r.date = 5)).length :=
  ⟨(ingestion_half_open_filter _ 5 20).1,
   (ingestion_half_open_filter _ 5 20).2 (by decide)⟩

/-- Counterexample to claim C6: the `get_data` loop has no exception
handling, so a parse failure in the first file makes the whole call
signal that error — the second, well-formed file is not ingested and no
mapping is returned at all. -/
theorem ingestion_batch_abort_cex :
    get_data [("A.csv", Except.error PyErr.parseError),
      ("B.csv", Except.ok [(⟨7, 1, 1, 1, 1, 1, 1⟩ : Row ℕ)])] 0 10 =
      Except.error PyErr.parseError := rfl

/-- Claim C6 amended: a parse or schema failure in any file of the batch
aborts the entire ingestion call — the error propagates to the caller
and no mapping is returned, so no other file of the batch appears in a
returned mapping. -/
theorem ingestion_batch_abort {δ : Type} [LinearOrder δ]
    (files : List (String × Except PyErr (List (Row δ)))) (s e : δ)
    (h : ∃ pr ∈ files, ∃ err, pr.2 = Except.error err) :
    ∃ err, get_data files s e = Except.error err := by
  induction files with
  | nil =>
    obtain ⟨pr, hpr, _⟩ := h
    exact absurd hpr (List.not_mem_nil pr)
  | cons f rest ih =>
    obtain ⟨fname, res⟩ := f
    cases res with
    | error err => exact ⟨err, rfl⟩
    | ok rows =>
      obtain ⟨pr, hpr, err, herr⟩ := h
      rcases List.mem_cons.mp hpr with hhd | htl
      · rw [hhd] at herr
        simp at herr
      · obtain ⟨err2, hrec⟩ := ih ⟨pr, htl, err, herr⟩
        refine ⟨err2, ?_⟩
        simp only [get_data, hrec]

/-- Witness for the amended C6 at a concrete two-file batch. -/
theorem ingestion_batch_abort_witness :
    ∃ err, get_data [("A.csv", Except.error PyErr.parseError),
      ("B.csv", Except.ok [(⟨7, 1, 1, 1, 1, 1, 1⟩ : Row ℕ)])] 0 10 =
      Except.error err :=
  ingestion_batch_abort _ 0 10
    ⟨("A.csv", Except.error PyErr.parseError),
      List.mem_cons_self _ _, PyErr.parseError, rfl⟩

/-- Counterexample to claim C7: `get_data` performs no sort, so a file
whose rows are dated 2 then 1 (both inside the interval) is returned in
that order — the produced series' dates are not strictly increasing. -/
theorem ingestion_no_sort_cex :
    get_data [("A.csv", Except.ok [(⟨2, 1, 1, 1, 1, 1, 1⟩ : Row ℕ),
        ⟨1, 1, 1, 1, 1, 1, 1⟩])] 0 10 =
      Except.ok [("A", [⟨2, 1, 1, 1, 1, 1, 1⟩, ⟨1, 1, 1, 1, 1, 1, 1⟩])] ∧
    ¬ List.Pairwise (fun a b => a < b)
      (([(⟨2, 1, 1, 1, 1, 1, 1⟩ : Row ℕ),
        ⟨1, 1, 1, 1, 1, 1, 1⟩]).map Row.date) := by
  constructor
  · rfl
  · decide

/-- Claim C7 amended: ingestion preserves the source row order — the
returned series is the filtered subsequence of the input rows — so its
dates are strictly increasing when the source rows' dates already are;
no re-sort happens for unordered input. -/
theorem ingestion_preserves_order {δ : Type} [LinearOrder δ]
    (rows : List (Row δ)) (s e : δ)
    (h : List.Pairwise (fun a b => a < b) (rows.map Row.date)) :
    List.Pairwise (fun a b => a < b)
      ((processFile rows s e).map Row.date) ∧
    (processFile rows s e).Sublist rows := by
  have hsub : (processFile rows s e).Sublist rows := List.filter_sublist _
  exact ⟨h.sublist (hsub.map Row.date), hsub⟩

/-- Witness for the amended C7: rows dated 1 then 3 stay ordered. -/
theorem ingestion_preserves_order_witness :
    List.Pairwise (fun a b => a < b)
      ((processFile [(⟨1, 1, 1, 1, 1, 1, 1⟩ : Row ℕ),
        ⟨3, 1, 1, 1, 1, 1, 1⟩] 0 10).map Row.date) ∧
    (processFile [(⟨1, 1, 1, 1, 1, 1, 1⟩ : Row ℕ),
      ⟨3, 1, 1, 1, 1, 1, 1⟩] 0 10).Sublist
      [⟨1, 1, 1, 1, 1, 1, 1⟩, ⟨3, 1, 1, 1, 1, 1, 1⟩] :=
  ingestion_preserves_order _ 0 10 (by decide)

/-- Claim C8: the candlestick projection maps every record, in order, to
its date's numeric ordinal paired with open/high/low/close; the ordinals
are strictly increasing when the dates are, no record is filtered or
aggregated, and the empty series projects to the empty sequence. -/
theorem candlestick_projection_spec (rows : List (Row ℕ))
    (h : List.Pairwise (fun a b => a < b) (rows.map Row.date)) :
    List.Pairwise (fun a b => a < b) ((ADI_candle rows).map Prod.fst) ∧
    (ADI_candle rows).length = rows.length ∧
    (∀ r ∈ rows,
      (date2num r.date, r.op, r.hi, r.lo, r.cl) ∈ ADI_candle rows) ∧
    (rows = [] → ADI_candle rows = []) := by
  refine ⟨?_, by simp [ADI_candle], ?_, ?_⟩
  · have hmap : (ADI_candle rows).map Prod.fst =
        rows.map (fun r => date2num r.date) := by
      simp [ADI_candle, List.map_map]
    rw [hmap, List.pairwise_map]
    rw [List.pairwise_map] at h
    exact h.imp (fun hab => by
      simpa [date2num] using (Nat.cast_lt (α := ℚ)).mpr hab)
  · intro r hr
    exact List.mem_map_of_mem _ hr
  · intro hnil
    rw [hnil]
    rfl

/-- Witness for C8 at a two-record series with increasing dates. -/
theorem candlestick_projection_spec_witness :
    List.Pairwise (fun a b => a < b)
      ((ADI_candle [⟨3, 10, 12, 9, 11, 11, 100⟩,
        ⟨5, 11, 13, 10, 12, 12, 200⟩]).map Prod.fst) ∧
    (ADI_candle [⟨3, 10, 12, 9, 11, 11, 100⟩,
      ⟨5, 11, 13, 10, 12, 12, 200⟩]).length =
      [(⟨3, 10, 12, 9, 11, 11, 100⟩ : Row ℕ),
        ⟨5, 11, 13, 10, 12, 12, 200⟩].length ∧
    (∀ r ∈ [(⟨3, 10, 12, 9, 11, 11, 100⟩ : Row ℕ),
        ⟨5, 11, 13, 10, 12, 12, 200⟩],
      (date2num r.date, r.op, r.hi, r.lo, r.cl) ∈
        ADI_candle [⟨3, 10, 12, 9, 11, 11, 100⟩,
          ⟨5, 11, 13, 10, 12, 12, 200⟩]) ∧
    ([(⟨3, 10, 12, 9, 11, 11, 100⟩ : Row ℕ),
        ⟨5, 11, 13, 10, 12, 12, 200⟩] = [] →
      ADI_candle [⟨3, 10, 12, 9, 11, 11, 100⟩,
        ⟨5, 11, 13, 10, 12, 12, 200⟩] = []) :=
  candlestick_projection_spec _ (by decide)

/-- Counterexample to claim C9: for the file name `ab.md` the mapping
key is `a` — the code drops exactly four trailing characters — not the
name without its extension, which would be `ab`. -/
theorem symbol_key_cex :
    get_data [("ab.md", Except.ok ([] : List (Row ℕ)))] 0 10 =
      Except.ok [("a", [])] ∧ ("a" : String) ≠ "ab" := by
  constructor
  · rfl
  · decide

/-- Claim C9 amended: the key under which a file's series appears is the
file name with its last four characters removed (correct only for
four-character extensions such as `.csv`). -/
theorem symbol_key_drops_last_four {δ : Type} [LinearOrder δ]
    (files : List (String × Except PyErr (List (Row δ)))) (s e : δ)
    (m : List (String × List (Row δ)))
    (h : get_data files s e = Except.ok m) :
    m.map Prod.fst = files.map (fun pr => dropLast4 pr.1) := by
  induction files generalizing m with
  | nil =>
    simp only [get_data] at h
    cases h
    rfl
  | cons f rest ih =>
    obtain ⟨fname, res⟩ := f
    cases res with
    | error err => simp [get_data] at h
    | ok rows =>
      cases hrec : get_data rest s e with
      | error err =>
        rw [show get_data ((fname, Except.ok rows) :: rest) s e =
          Except.error err by simp only [get_data, hrec]] at h
        cases h
      | ok m' =>
        rw [show get_data ((fname, Except.ok rows) :: rest) s e =
          Except.ok ((dropLast4 fname, processFile rows s e) :: m') by
            simp only [get_data, hrec]] at h
        cases h
        simp only [List.map_cons]
        rw [ih m' hrec]

/-- Witness for the amended C9: `ABC.csv` maps to key `ABC`. -/
theorem symbol_key_drops_last_four_witness :
    ([("ABC", ([] : List (Row ℕ)))]).map Prod.fst =
      [("ABC.csv", (Except.ok [] : Except PyErr (List (Row ℕ))))].map
        (fun pr => dropLast4 pr.1) :=
  symbol_key_drops_last_four
    [("ABC.csv", Except.ok ([] : List (Row ℕ)))] 0 10 [("ABC", [])] rfl
